import Mathlib

/-
Shallow embedding of the expression-preprocessing and position-mapping
subsystem of a YAML template language server, translated from the Rust
sources src/parser/preprocessor.rs, src/parser/expressions.rs and
src/parser/yaml.rs.

Modelling conventions:
  - Document text is a list of characters; byte offsets are character
    offsets (the scanned delimiter and quote characters are all ASCII, and
    UTF-8 continuation bytes never collide with them, so the byte walk of
    the Rust code visits exactly the positions this model visits on ASCII
    text, which is what every claim exercises).
  - Rust usize and u32 values are Nat; isize, i64 and the int variables of
    the source are Int.  Where the source performs a wrapping cast such as
    an "as u32" on an isize or i64, the model applies an explicit
    reduction modulo 2^32 (u32cast below).  A u32 subtraction, which in
    Rust panics on underflow under debug overflow checks and wraps in
    release builds, is modelled by the wrapping u32sub together with a
    separate reachability predicate (adjust_position_underflows) that
    records whether an underflowing subtraction is actually evaluated.
  - Rust loops become fuelled or structural recursion; fuel is always
    instantiated large enough, and fuel-sufficiency lemmas shown below
    make the wrappers independent of the exact fuel.
-/

/-- Wrapping cast of a signed integer to u32, as performed by an
"as u32" conversion in the source. -/
def u32cast (x : Int) : Nat :=
  (x % (2 ^ 32 : Int)).toNat

/-- Wrapping u32 subtraction: release-mode semantics of a Rust u32
subtraction.  Under debug overflow checks the source would panic when
b is greater than a. -/
def u32sub (a b : Nat) : Nat :=
  u32cast ((a : Int) - (b : Int))

/-- The kind of an embedded expression: Terraform interpolation or a GCP
Workflows runtime expression (from expressions.rs). -/
inductive ExpressionKind : Type
  | Terraform : ExpressionKind
  | Workflows : ExpressionKind
deriving DecidableEq

/-- A single expression found in the document (struct Expression of
expressions.rs).  The field end_ models the Rust field named end. -/
structure Expression : Type where
  original : List Char
  placeholder : List Char
  start : Nat
  end_ : Nat
  start_line : Nat
  start_column : Nat
  end_line : Nat
  end_column : Nat
  kind : ExpressionKind
deriving DecidableEq

/-- Length of the original expression (Expression::original_len). -/
def Expression.original_len (e : Expression) : Nat :=
  e.end_ - e.start

/-- Length of the placeholder (Expression::placeholder_len). -/
def Expression.placeholder_len (e : Expression) : Nat :=
  e.placeholder.length

/-- Signed difference between original and placeholder length
(Expression::len_delta, computed in isize in the source). -/
def Expression.len_delta (e : Expression) : Int :=
  (e.original_len : Int) - (e.placeholder_len : Int)

/-- A cached per-expression position-translation record (struct
PositionDelta of expressions.rs). -/
structure PositionDelta : Type where
  preprocessed_line : Nat
  preprocessed_column : Nat
  preprocessed_end_column : Nat
  original_line : Nat
  original_column : Nat
  original_end_line : Nat
  original_end_column : Nat
  is_multiline : Bool
deriving DecidableEq

/-- The collection of expressions for one document plus the derived delta
table (struct ExpressionMap of expressions.rs). -/
structure ExpressionMap : Type where
  expressions : List Expression
  position_deltas : List PositionDelta
deriving DecidableEq

/-- A match found by the expression scanner (struct ExpressionMatch of
preprocessor.rs).  The field end_ models the Rust field named end. -/
structure ExpressionMatch : Type where
  start : Nat
  end_ : Nat
  text : List Char
  kind : ExpressionKind
deriving DecidableEq

/-- String-skipping sub-scan of find_matching_brace: given the characters
after an opening quote q, consume up to and including the matching
unescaped quote and return the remainder; none models running off the end
of the text (in which case the enclosing loop of the source also runs to
the end and reports no match).  A backslash escapes exactly the next
byte. -/
def skipStr (q : Char) : List Char → Option (List Char)
  | [] => none
  | c :: rest =>
    if c = '\\' then
      match rest with
      | [] => none
      | _ :: rest2 => skipStr q rest2
    else if c = q then some rest
    else skipStr q rest

/-- Fuelled loop body of find_matching_brace (preprocessor.rs).  depth is
the brace-nesting counter (an i32 in the source), l the remaining text and
i the current index in the full text; returns the exclusive end position
of the brace that brings the depth to zero. -/
def fmbAux : Nat → Int → List Char → Nat → Option Nat
  | 0, _, _, _ => none
  | _ + 1, _, [], _ => none
  | fuel + 1, depth, c :: rest, i =>
    if c = '\x7b' then fmbAux fuel (depth + 1) rest (i + 1)
    else if c = '\x7d' then
      if depth - 1 = 0 then some (i + 1) else fmbAux fuel (depth - 1) rest (i + 1)
    else if c = '\x22' then
      match skipStr '\x22' rest with
      | none => none
      | some r2 => fmbAux fuel depth r2 (i + 1 + (rest.length - r2.length))
    else if c = '\x27' then
      match skipStr '\x27' rest with
      | none => none
      | some r2 => fmbAux fuel depth r2 (i + 1 + (rest.length - r2.length))
    else fmbAux fuel depth rest (i + 1)

/-- Find the matching closing brace for the opening brace at open_pos and
return the exclusive end position (find_matching_brace of
preprocessor.rs). -/
def find_matching_brace (t : List Char) (open_pos : Nat) : Option Nat :=
  if t.get? open_pos = some '\x7b' then
    fmbAux (t.length - open_pos) 0 (t.drop open_pos) open_pos
  else none

/-- Fuelled loop body of scan_expressions (preprocessor.rs): scan the text
from index i for Workflows and Terraform expressions, testing the
doubly-delimited opener first and skipping a singly-delimited opener that
is immediately preceded by another dollar sign. -/
def scanAux : Nat → List Char → Nat → List ExpressionMatch
  | 0, _, _ => []
  | fuel + 1, t, i =>
    if i < t.length then
      if i + 2 < t.length ∧ t.get? i = some '$' ∧ t.get? (i + 1) = some '$'
          ∧ t.get? (i + 2) = some '\x7b' then
        match find_matching_brace t (i + 2) with
        | some e => ⟨i, e, (t.drop i).take (e - i), ExpressionKind.Workflows⟩ :: scanAux fuel t e
        | none => scanAux fuel t (i + 1)
      else if i + 1 < t.length ∧ t.get? i = some '$' ∧ t.get? (i + 1) = some '\x7b' then
        if 0 < i ∧ t.get? (i - 1) = some '$' then scanAux fuel t (i + 1)
        else
          match find_matching_brace t (i + 1) with
          | some e => ⟨i, e, (t.drop i).take (e - i), ExpressionKind.Terraform⟩ :: scanAux fuel t e
          | none => scanAux fuel t (i + 1)
      else scanAux fuel t (i + 1)
    else []

/-- The scanner state resumed at index i with sufficient fuel. -/
def scanFrom (t : List Char) (i : Nat) : List ExpressionMatch :=
  scanAux (t.length + 1) t i

/-- Scan the whole text for expressions (scan_expressions of
preprocessor.rs). -/
def scan_expressions (t : List Char) : List ExpressionMatch :=
  scanFrom t 0

/-- Loop body of offset_to_line_col: walk the first rem characters,
counting newlines. -/
def otlcAux : List Char → Nat → Nat → Nat → Nat × Nat
  | [], _, line, col => (line, col)
  | c :: rest, rem, line, col =>
    match rem with
    | 0 => (line, col)
    | r + 1 =>
      if c = '\n' then otlcAux rest r (line + 1) 0
      else otlcAux rest r line (col + 1)

/-- Convert a character offset to zero-indexed line and column
(offset_to_line_col of preprocessor.rs). -/
def offset_to_line_col (t : List Char) (offset : Nat) : Nat × Nat :=
  otlcAux t offset 0 0

/-- Zero-pad a number to at least three digits, as the 03 width specifier
of the placeholder format string does. -/
def pad3 (n : Nat) : List Char :=
  (if n < 10 then ['0', '0'] else if n < 100 then ['0'] else []) ++ Nat.toDigits 10 n

/-- The placeholder text for ordinal n: the format string
"__EXPR_{:03}__" of preprocess_expressions rendered at n (braces of the
Rust format spec elided here). -/
def placeholderName (n : Nat) : List Char :=
  "__EXPR_".toList ++ pad3 n ++ "__".toList

/-- String::replace_range: replace the half-open character range from s
to e with r. -/
def replaceRange (l : List Char) (s e : Nat) (r : List Char) : List Char :=
  l.take s ++ r ++ l.drop e

/-- Build the Expression record that preprocess_expressions adds for the
pair of a placeholder ordinal and a scanner match, with line and column
data computed against the original text t. -/
def mkExprOf (t : List Char) (cm : Nat × ExpressionMatch) : Expression :=
  ⟨cm.2.text, placeholderName cm.1, cm.2.start, cm.2.end_,
    (offset_to_line_col t cm.2.start).1, (offset_to_line_col t cm.2.start).2,
    (offset_to_line_col t cm.2.end_).1, (offset_to_line_col t cm.2.end_).2,
    cm.2.kind⟩

/-- One iteration of the replacement loop of preprocess_expressions:
rewrite the span of the match in the working text and push the Expression
record. -/
def preprocessStep (t : List Char) (acc : List Char × List Expression)
    (cm : Nat × ExpressionMatch) : List Char × List Expression :=
  (replaceRange acc.1 cm.2.start cm.2.end_ (placeholderName cm.1),
    acc.2 ++ [mkExprOf t cm])

/-- Loop body of ExpressionMap::build_position_deltas, carrying the
current line and the cumulative column offset (an isize in the source)
through the expression list. -/
def buildDeltasAux : List Expression → Nat → Int → List PositionDelta
  | [], _, _ => []
  | e :: rest, current_line, cum =>
    let cl := if e.start_line ≠ current_line then e.start_line else current_line
    let cum2 : Int := if e.start_line ≠ current_line then 0 else cum
    let pc := u32cast ((e.start_column : Int) - cum2)
    let pec := pc + e.placeholder_len
    ⟨e.start_line, pc, pec, e.start_line, e.start_column, e.end_line, e.end_column,
      decide (e.start_line ≠ e.end_line)⟩ :: buildDeltasAux rest cl (cum2 + e.len_delta)

/-- Build the delta table of a finalized map
(ExpressionMap::build_position_deltas). -/
def build_position_deltas (exprs : List Expression) : List PositionDelta :=
  buildDeltasAux exprs 0 0

/-- Sort the expressions by start offset (a stable sort, as Rust
sort_by_key is; insertion sort here) and build the delta table
(ExpressionMap::finalize). -/
def finalize (m : ExpressionMap) : ExpressionMap :=
  let sorted := List.insertionSort (fun a b => a.start ≤ b.start) m.expressions
  ⟨sorted, build_position_deltas sorted⟩

/-- Preprocess a document: scan for expressions, replace them from the
highest start offset to the lowest with ordinally named placeholders, and
finalize the resulting map (preprocess_expressions of preprocessor.rs). -/
def preprocess_expressions (t : List Char) : List Char × ExpressionMap :=
  let ms := scan_expressions t
  if ms = [] then (t, ⟨[], []⟩)
  else
    let res := (ms.reverse.enum).foldl (preprocessStep t) (t, [])
    (res.1, finalize ⟨res.2, []⟩)

/-- Loop body of ExpressionMap::adjust_position, threading the
accumulating adjusted column (an i64 in the source) through the delta
list. -/
def adjustAux : List PositionDelta → Nat → Nat → Int → Nat × Nat
  | [], line, _, adj => (line, u32cast (max adj 0))
  | d :: rest, line, column, adj =>
    if d.preprocessed_line = line then
      if d.preprocessed_column ≤ column ∧ column < d.preprocessed_end_column then
        (d.original_line, d.original_column)
      else if d.preprocessed_end_column ≤ column then
        adjustAux rest line column
          (adj + ((u32sub d.original_end_column d.original_column : Int)
            - (u32sub d.preprocessed_end_column d.preprocessed_column : Int)))
      else adjustAux rest line column adj
    else adjustAux rest line column adj

/-- Map a position in rewritten-text coordinates back to original-text
coordinates (ExpressionMap::adjust_position). -/
def adjust_position (m : ExpressionMap) (line column : Nat) : Nat × Nat :=
  adjustAux m.position_deltas line column (column : Int)

/-- Walk the deltas exactly as adjust_position does, reporting whether a
u32 subtraction with subtrahend exceeding its minuend is reached before
the walk returns. -/
def adjUnderAux : List PositionDelta → Nat → Nat → Bool
  | [], _, _ => false
  | d :: rest, line, column =>
    if d.preprocessed_line = line then
      if d.preprocessed_column ≤ column ∧ column < d.preprocessed_end_column then false
      else if d.preprocessed_end_column ≤ column then
        if d.preprocessed_end_column < d.preprocessed_column
            ∨ d.original_end_column < d.original_column then true
        else adjUnderAux rest line column
      else adjUnderAux rest line column
    else adjUnderAux rest line column

/-- Reachability of an underflowing u32 subtraction inside
adjust_position: true iff the evaluation of adjust_position on these
arguments performs a u32 subtraction whose subtrahend exceeds its minuend
(which panics under Rust debug overflow checks). -/
def adjust_position_underflows (m : ExpressionMap) (line column : Nat) : Bool :=
  adjUnderAux m.position_deltas line column

/-- The queried rewritten-text position lies in the half-open column
range of the placeholder recorded by a delta. -/
def containsPos (d : PositionDelta) (line col : Nat) : Prop :=
  d.preprocessed_line = line ∧ d.preprocessed_column ≤ col ∧ col < d.preprocessed_end_column

instance (d : PositionDelta) (line col : Nat) : Decidable (containsPos d line col) :=
  inferInstanceAs (Decidable (_ ∧ _ ∧ _))

/-- Specification-side accumulated column shift for a query: the sum,
over every delta on the queried line whose placeholder ends at or before
the queried column, of the signed difference between the original
expression length and the placeholder length. -/
def lineShift : List PositionDelta → Nat → Nat → Int
  | [], _, _ => 0
  | d :: rest, line, col =>
    (if d.preprocessed_line = line ∧ d.preprocessed_end_column ≤ col then
      ((d.original_end_column : Int) - (d.original_column : Int))
        - ((d.preprocessed_end_column : Int) - (d.preprocessed_column : Int))
    else 0) + lineShift rest line col

/-- Specification-side grammar of the tail of a quoted string inside an
expression: the characters after the opening quote q, up to and including
the matching unescaped closing quote, where a backslash escapes exactly
the next character. -/
inductive StrTail : Char → List Char → Prop
  | close (q : Char) : StrTail q [q]
  | esc (q c : Char) (s : List Char) : StrTail q s → StrTail q ('\\' :: c :: s)
  | chr (q c : Char) (s : List Char) : c ≠ q → c ≠ '\\' → StrTail q s → StrTail q (c :: s)

/-- Specification-side grammar of a well-formed expression interior: a
sequence of plain characters, balanced nested brace blocks, and
double- or single-quoted strings (whose brace characters do not count
toward nesting). -/
inductive Content : List Char → Prop
  | nil : Content []
  | chr (c : Char) (t : List Char) : c ≠ '\x7b' → c ≠ '\x7d' → c ≠ '\x22' → c ≠ '\x27' →
      Content t → Content (c :: t)
  | brace (s t : List Char) : Content s → Content t → Content ('\x7b' :: (s ++ '\x7d' :: t))
  | dq (s t : List Char) : StrTail '\x22' s → Content t → Content ('\x22' :: (s ++ t))
  | sq (s t : List Char) : StrTail '\x27' s → Content t → Content ('\x27' :: (s ++ t))

/-- Numeric value of a digit string, as the successful case of the
str::parse call in extract_error_position computes it. -/
def digitsToNat (l : List Char) : Nat :=
  l.foldl (fun a c => 10 * a + (c.toNat - '0'.toNat)) 0

/-- Attempt to match the locator pattern of the POSITION_RE regex of
yaml.rs, anchored at the head of s: the literal text "at line ", one or
more digits, the literal text " column ", one or more digits.  Returns
the two numeric values and the remainder after the (greedy) second digit
run.  Greedy matching is faithful here because no shorter digit run can
be followed by the required non-digit literal. -/
def matchLocAt (s : List Char) : Option (Nat × Nat × List Char) :=
  if s.take 8 = "at line ".toList then
    let s1 := s.drop 8
    let d1 := s1.takeWhile (fun c => c.isDigit)
    if d1 = [] then none
    else
      let s2 := s1.drop d1.length
      if s2.take 8 = " column ".toList then
        let d2 := (s2.drop 8).takeWhile (fun c => c.isDigit)
        if d2 = [] then none
        else some (digitsToNat d1, digitsToNat d2, (s2.drop 8).drop d2.length)
      else none
  else none

/-- Leftmost match of the locator pattern in a message, as Regex::captures
of yaml.rs finds it. -/
def findLoc : List Char → Option (Nat × Nat × List Char)
  | [] => none
  | c :: rest =>
    match matchLocAt (c :: rest) with
    | some v => some v
    | none => findLoc rest

/-- Extract the zero-indexed error position from a parser message
(extract_error_position of yaml.rs): take the first embedded locator,
parse its two numbers as u32 with fallback 1 on overflow, and
saturating-subtract 1 from each; without a locator, default to the start
of the document. -/
def extract_error_position (msg : List Char) : Nat × Nat :=
  match findLoc msg with
  | some (n, m, _) => ((if n < 2 ^ 32 then n else 1) - 1, (if m < 2 ^ 32 then m else 1) - 1)
  | none => (0, 0)

/-- ASCII whitespace, the fragment of the regex class matched by blanks
in parser messages (the source regex uses the full Unicode class; parser
messages only contain these). -/
def isWsChar (c : Char) : Bool :=
  c = ' ' ∨ c = '\t' ∨ c = '\n' ∨ c = '\r' ∨ c = '\x0b' ∨ c = '\x0c'

/-- Whether s matches the POSITION_SUFFIX_RE regex of yaml.rs in full:
one or more whitespace characters, then a locator extending exactly to
the end of s. -/
def matchCleanSuffix (s : List Char) : Bool :=
  let w := s.takeWhile isWsChar
  if w = [] then false
  else
    match matchLocAt (s.drop w.length) with
    | some (_, _, rest) => rest = []
    | none => false

/-- Index of the leftmost suffix of the message matching the
position-suffix regex, carrying the index accumulator k. -/
def cleanAux : List Char → Nat → Option Nat
  | [], _ => none
  | c :: rest, k => if matchCleanSuffix (c :: rest) then some k else cleanAux rest (k + 1)

/-- Remove the trailing position locator from a parser message
(clean_error_message of yaml.rs): replace the leftmost match of the
position-suffix regex, which necessarily extends to the end of the
message, by nothing. -/
def clean_error_message (msg : List Char) : List Char :=
  match cleanAux msg 0 with
  | some i => msg.take i
  | none => msg

/-- Specification-side statement that the suffix s of a message begins
with a locator with values n and m: the literal text "at line ", a
nonempty digit run valuing n, the literal text " column ", a maximal
nonempty digit run valuing m. -/
def LocatorFrom (s : List Char) (n m : Nat) : Prop :=
  ∃ d1 d2 rest, s = "at line ".toList ++ d1 ++ " column ".toList ++ d2 ++ rest
    ∧ d1 ≠ [] ∧ (∀ c ∈ d1, c.isDigit = true)
    ∧ d2 ≠ [] ∧ (∀ c ∈ d2, c.isDigit = true)
    ∧ (∀ c ∈ rest.take 1, c.isDigit = false)
    ∧ digitsToNat d1 = n ∧ digitsToNat d2 = m

/-- Specification-side statement that a message contains an embedded
locator somewhere. -/
def HasLocator (msg : List Char) : Prop :=
  ∃ i n m, LocatorFrom (msg.drop i) n m

/-
Infrastructure lemmas: fuel sufficiency and index bounds for the fuelled
loops, so that the wrappers are independent of the exact fuel value.
-/

/-- The string-skipping sub-scan consumes at least one character. -/
lemma skipStr_length_aux (q : Char) : ∀ (n : Nat) (l r : List Char), l.length ≤ n →
    skipStr q l = some r → r.length < l.length := by
  intro n
  induction n with
  | zero =>
    intro l r hl h
    cases l with
    | nil => simp [skipStr] at h
    | cons c rest => simp at hl
  | succ n ih =>
    intro l r hl h
    cases l with
    | nil => simp [skipStr] at h
    | cons c rest =>
      cases rest with
      | nil =>
        simp only [skipStr] at h
        split_ifs at h
        injection h with h
        subst h
        simp
      | cons x rest2 =>
        simp only [skipStr] at h
        split_ifs at h with h1 h2
        · have hr := ih rest2 r (by simp at hl ⊢; omega) h
          simp at hr ⊢
          omega
        · injection h with h
          subst h
          simp
        · have hr := ih (x :: rest2) r (by simp at hl ⊢; omega) h
          simp at hr ⊢
          omega

/-- The string-skipping sub-scan consumes at least one character. -/
lemma skipStr_length (q : Char) (l r : List Char) (h : skipStr q l = some r) :
    r.length < l.length :=
  skipStr_length_aux q l.length l r (Nat.le_refl _) h

/-- The brace-matching loop computes the same result under any
sufficiently large fuel. -/
lemma fmbAux_fuel : ∀ (f1 f2 : Nat) (d : Int) (l : List Char) (i : Nat),
    l.length ≤ f1 → l.length ≤ f2 → fmbAux f1 d l i = fmbAux f2 d l i := by
  intro f1
  induction f1 with
  | zero =>
    intro f2 d l i h1 h2
    have hl : l = [] := List.eq_nil_of_length_eq_zero (Nat.le_zero.mp h1)
    subst hl
    cases f2 <;> simp [fmbAux]
  | succ a ih =>
    intro f2 d l i h1 h2
    cases l with
    | nil => cases f2 <;> simp [fmbAux]
    | cons c rest =>
      cases f2 with
      | zero => simp at h2
      | succ b =>
        have ha : rest.length ≤ a := by simp at h1; omega
        have hb : rest.length ≤ b := by simp at h2; omega
        simp only [fmbAux]
        split_ifs with hc1 hc2 hc3 hc4 hc5
        · exact ih b (d + 1) rest (i + 1) ha hb
        · rfl
        · exact ih b (d - 1) rest (i + 1) ha hb
        · cases hs : skipStr '\x22' rest with
          | none => rfl
          | some r2 =>
            have hlt := skipStr_length '\x22' rest r2 hs
            exact ih b d r2 (i + 1 + (rest.length - r2.length)) (by omega) (by omega)
        · cases hs : skipStr '\x27' rest with
          | none => rfl
          | some r2 =>
            have hlt := skipStr_length '\x27' rest r2 hs
            exact ih b d r2 (i + 1 + (rest.length - r2.length)) (by omega) (by omega)
        · exact ih b d rest (i + 1) ha hb

/-- Any position returned by the brace-matching loop lies strictly beyond
the current index. -/
lemma fmbAux_bound : ∀ (f : Nat) (d : Int) (l : List Char) (i e : Nat),
    fmbAux f d l i = some e → i + 1 ≤ e := by
  intro f
  induction f with
  | zero => intro d l i e h; simp [fmbAux] at h
  | succ a ih =>
    intro d l i e h
    cases l with
    | nil => simp [fmbAux] at h
    | cons c rest =>
      simp only [fmbAux] at h
      split_ifs at h with hc1 hc2 hc3 hc4 hc5
      · have := ih (d + 1) rest (i + 1) e h
        omega
      · injection h with h
        omega
      · have := ih (d - 1) rest (i + 1) e h
        omega
      · cases hs : skipStr '\x22' rest with
        | none => rw [hs] at h; simp at h
        | some r2 =>
          rw [hs] at h
          have := ih d r2 (i + 1 + (rest.length - r2.length)) e h
          omega
      · cases hs : skipStr '\x27' rest with
        | none => rw [hs] at h; simp at h
        | some r2 =>
          rw [hs] at h
          have := ih d r2 (i + 1 + (rest.length - r2.length)) e h
          omega
      · have := ih d rest (i + 1) e h
        omega

/-- Any end position returned by find_matching_brace lies strictly beyond
the opening position. -/
lemma fmb_bound (t : List Char) (p e : Nat) (h : find_matching_brace t p = some e) :
    p + 1 ≤ e := by
  unfold find_matching_brace at h
  split_ifs at h
  exact fmbAux_bound _ 0 _ p e h

/-- The scanner loop computes the same result under any sufficiently
large fuel. -/
lemma scanAux_fuel : ∀ (f1 f2 : Nat) (t : List Char) (i : Nat),
    t.length + 1 ≤ f1 + i → t.length + 1 ≤ f2 + i → scanAux f1 t i = scanAux f2 t i := by
  intro f1
  induction f1 with
  | zero =>
    intro f2 t i h1 h2
    cases f2 with
    | zero => rfl
    | succ b =>
      simp only [scanAux]
      rw [if_neg (by omega)]
  | succ a ih =>
    intro f2 t i h1 h2
    cases f2 with
    | zero =>
      simp only [scanAux]
      rw [if_neg (by omega)]
    | succ b =>
      simp only [scanAux]
      by_cases hi : i < t.length
      · rw [if_pos hi, if_pos hi]
        split_ifs with hw ht hskip
        · cases hm : find_matching_brace t (i + 2) with
          | some e =>
            have he := fmb_bound t (i + 2) e hm
            have hrec := ih b t e (by omega) (by omega)
            simp only [hrec]
          | none =>
            exact ih b t (i + 1) (by omega) (by omega)
        · exact ih b t (i + 1) (by omega) (by omega)
        · cases hm : find_matching_brace t (i + 1) with
          | some e =>
            have he := fmb_bound t (i + 1) e hm
            have hrec := ih b t e (by omega) (by omega)
            simp only [hrec]
          | none =>
            exact ih b t (i + 1) (by omega) (by omega)
        · exact ih b t (i + 1) (by omega) (by omega)
      · rw [if_neg hi, if_neg hi]

/-- A scanner state with at least the default fuel computes scanFrom. -/
lemma scanAux_eq_scanFrom (f : Nat) (t : List Char) (i : Nat)
    (h : t.length + 1 ≤ f + i) : scanAux f t i = scanFrom t i :=
  scanAux_fuel f (t.length + 1) t i h (by omega)

/-- An index with a some-result of get? is within the list. -/
lemma lt_length_of_get?_some {α : Type} {t : List α} {i : Nat} {c : α}
    (h : t.get? i = some c) : i < t.length := by
  by_contra hn
  rw [List.get?_eq_none.mpr (by omega)] at h
  exact Option.noConfusion h

/-- Scanner step: a doubly-delimited opener with a brace match yields a
Workflows expression and the scan resumes at its end. -/
lemma scanFrom_w_match (t : List Char) (i e : Nat)
    (h0 : t.get? i = some '$') (h1 : t.get? (i + 1) = some '$')
    (h2 : t.get? (i + 2) = some '\x7b')
    (hm : find_matching_brace t (i + 2) = some e) :
    scanFrom t i =
      ⟨i, e, (t.drop i).take (e - i), ExpressionKind.Workflows⟩ :: scanFrom t e := by
  have hi2 : i + 2 < t.length := lt_length_of_get?_some h2
  have he := fmb_bound t (i + 2) e hm
  show scanAux (t.length + 1) t i = _
  simp only [scanAux]
  rw [if_pos (by omega), if_pos ⟨hi2, h0, h1, h2⟩, hm]
  exact congrArg
    (fun l => (⟨i, e, (t.drop i).take (e - i), ExpressionKind.Workflows⟩ : ExpressionMatch) :: l)
    (scanAux_eq_scanFrom t.length t e (by omega))

/-- Scanner step: a doubly-delimited opener without a brace match records
nothing and the scan resumes at the next index. -/
lemma scanFrom_w_none (t : List Char) (i : Nat)
    (h0 : t.get? i = some '$') (h1 : t.get? (i + 1) = some '$')
    (h2 : t.get? (i + 2) = some '\x7b')
    (hm : find_matching_brace t (i + 2) = none) :
    scanFrom t i = scanFrom t (i + 1) := by
  have hi2 : i + 2 < t.length := lt_length_of_get?_some h2
  show scanAux (t.length + 1) t i = _
  simp only [scanAux]
  rw [if_pos (by omega), if_pos ⟨hi2, h0, h1, h2⟩, hm]
  rw [scanAux_eq_scanFrom t.length t (i + 1) (by omega)]

/-- Scanner step: a singly-delimited opener not preceded by a dollar sign
with a brace match yields a Terraform expression and the scan resumes at
its end. -/
lemma scanFrom_t_match (t : List Char) (i e : Nat)
    (h0 : t.get? i = some '$') (h1 : t.get? (i + 1) = some '\x7b')
    (hpre : i = 0 ∨ t.get? (i - 1) ≠ some '$')
    (hm : find_matching_brace t (i + 1) = some e) :
    scanFrom t i =
      ⟨i, e, (t.drop i).take (e - i), ExpressionKind.Terraform⟩ :: scanFrom t e := by
  have hi1 : i + 1 < t.length := lt_length_of_get?_some h1
  have he := fmb_bound t (i + 1) e hm
  have hnw : ¬(i + 2 < t.length ∧ t.get? i = some '$' ∧ t.get? (i + 1) = some '$'
      ∧ t.get? (i + 2) = some '\x7b') := by
    intro hw
    rw [h1] at hw
    have : ('\x7b' : Char) = '$' := Option.some.inj hw.2.2.1
    exact absurd this (by decide)
  have hns : ¬(0 < i ∧ t.get? (i - 1) = some '$') := by
    intro hs
    cases hpre with
    | inl h => omega
    | inr h => exact h hs.2
  show scanAux (t.length + 1) t i = _
  simp only [scanAux]
  rw [if_pos (by omega), if_neg hnw, if_pos ⟨hi1, h0, h1⟩, if_neg hns, hm]
  exact congrArg
    (fun l => (⟨i, e, (t.drop i).take (e - i), ExpressionKind.Terraform⟩ : ExpressionMatch) :: l)
    (scanAux_eq_scanFrom t.length t e (by omega))

/-- Scanner step: a singly-delimited opener not preceded by a dollar sign
whose brace matching fails records nothing and the scan resumes at the
next index. -/
lemma scanFrom_t_none (t : List Char) (i : Nat)
    (h0 : t.get? i = some '$') (h1 : t.get? (i + 1) = some '\x7b')
    (hpre : i = 0 ∨ t.get? (i - 1) ≠ some '$')
    (hm : find_matching_brace t (i + 1) = none) :
    scanFrom t i = scanFrom t (i + 1) := by
  have hi1 : i + 1 < t.length := lt_length_of_get?_some h1
  have hnw : ¬(i + 2 < t.length ∧ t.get? i = some '$' ∧ t.get? (i + 1) = some '$'
      ∧ t.get? (i + 2) = some '\x7b') := by
    intro hw
    rw [h1] at hw
    have : ('\x7b' : Char) = '$' := Option.some.inj hw.2.2.1
    exact absurd this (by decide)
  have hns : ¬(0 < i ∧ t.get? (i - 1) = some '$') := by
    intro hs
    cases hpre with
    | inl h => omega
    | inr h => exact h hs.2
  show scanAux (t.length + 1) t i = _
  simp only [scanAux]
  rw [if_pos (by omega), if_neg hnw, if_pos ⟨hi1, h0, h1⟩, if_neg hns, hm]
  rw [scanAux_eq_scanFrom t.length t (i + 1) (by omega)]

/-- Scanner step: a singly-delimited opener immediately preceded by a
dollar sign is skipped and the scan resumes at the next index. -/
lemma scanFrom_t_skip (t : List Char) (i : Nat)
    (h0 : t.get? i = some '$') (h1 : t.get? (i + 1) = some '\x7b')
    (hp : 0 < i) (hd : t.get? (i - 1) = some '$') :
    scanFrom t i = scanFrom t (i + 1) := by
  have hi1 : i + 1 < t.length := lt_length_of_get?_some h1
  have hnw : ¬(i + 2 < t.length ∧ t.get? i = some '$' ∧ t.get? (i + 1) = some '$'
      ∧ t.get? (i + 2) = some '\x7b') := by
    intro hw
    rw [h1] at hw
    have : ('\x7b' : Char) = '$' := Option.some.inj hw.2.2.1
    exact absurd this (by decide)
  show scanAux (t.length + 1) t i = _
  simp only [scanAux]
  rw [if_pos (by omega), if_neg hnw, if_pos ⟨hi1, h0, h1⟩, if_pos ⟨hp, hd⟩]
  rw [scanAux_eq_scanFrom t.length t (i + 1) (by omega)]

/-- One brace-matching step on an opening brace. -/
lemma fmbAux_step_open (f : Nat) (d : Int) (rest : List Char) (i : Nat) :
    fmbAux (f + 1) d ('\x7b' :: rest) i = fmbAux f (d + 1) rest (i + 1) := by
  simp [fmbAux]

/-- One brace-matching step on a closing brace at inner depth. -/
lemma fmbAux_step_close (f : Nat) (d : Int) (rest : List Char) (i : Nat)
    (hd : ¬(d - 1 = 0)) :
    fmbAux (f + 1) d ('\x7d' :: rest) i = fmbAux f (d - 1) rest (i + 1) := by
  simp [fmbAux, hd]

/-- One brace-matching step on the closing brace that returns the depth
to zero. -/
lemma fmbAux_step_close0 (f : Nat) (d : Int) (rest : List Char) (i : Nat)
    (hd : d - 1 = 0) :
    fmbAux (f + 1) d ('\x7d' :: rest) i = some (i + 1) := by
  simp [fmbAux, hd]

/-- One brace-matching step entering a double-quoted string. -/
lemma fmbAux_step_dq (f : Nat) (d : Int) (rest r2 : List Char) (i : Nat)
    (hs : skipStr '\x22' rest = some r2) :
    fmbAux (f + 1) d ('\x22' :: rest) i = fmbAux f d r2 (i + 1 + (rest.length - r2.length)) := by
  simp [fmbAux, hs]

/-- One brace-matching step entering a single-quoted string. -/
lemma fmbAux_step_sq (f : Nat) (d : Int) (rest r2 : List Char) (i : Nat)
    (hs : skipStr '\x27' rest = some r2) :
    fmbAux (f + 1) d ('\x27' :: rest) i = fmbAux f d r2 (i + 1 + (rest.length - r2.length)) := by
  simp [fmbAux, hs]

/-- One brace-matching step on an ordinary character. -/
lemma fmbAux_step_chr (f : Nat) (d : Int) (c : Char) (rest : List Char) (i : Nat)
    (h1 : c ≠ '\x7b') (h2 : c ≠ '\x7d') (h3 : c ≠ '\x22') (h4 : c ≠ '\x27') :
    fmbAux (f + 1) d (c :: rest) i = fmbAux f d rest (i + 1) := by
  simp [fmbAux, h1, h2, h3, h4]

/-- The string-skipping sub-scan consumes exactly a well-formed quoted
string tail and returns the remainder. -/
lemma skipStr_strTail (q : Char) (hq : q ≠ '\\') {sb : List Char} (h : StrTail q sb) :
    ∀ rest, skipStr q (sb ++ rest) = some rest := by
  induction h with
  | close =>
    intro rest
    rw [skipStr.eq_def]
    simp [hq]
  | esc c s hs ih =>
    intro rest
    simpa [skipStr] using ih rest
  | chr c s hc hcb hs ih =>
    intro rest
    rw [List.cons_append, skipStr.eq_def]
    simp only [if_neg hcb, if_neg hc]
    exact ih rest

/-- The brace-matching loop at positive depth consumes a well-formed
interior without returning, arriving after it with the same depth. -/
lemma content_fmbAux {s : List Char} (h : Content s) : ∀ (f : Nat) (d : Int)
    (rest : List Char) (i : Nat), 1 ≤ d → (s ++ rest).length ≤ f →
    fmbAux f d (s ++ rest) i = fmbAux rest.length d rest (i + s.length) := by
  induction h with
  | nil =>
    intro f d rest i hd hf
    simp only [List.nil_append, List.length_nil, Nat.add_zero] at hf ⊢
    exact fmbAux_fuel f rest.length d rest i hf (le_refl _)
  | chr c t h1 h2 h3 h4 ht ih =>
    intro f d rest i hd hf
    cases f with
    | zero => simp at hf
    | succ a =>
      have hidx : i + (c :: t).length = (i + 1) + t.length := by
        simp
        omega
      rw [hidx, List.cons_append, fmbAux_step_chr a d c (t ++ rest) i h1 h2 h3 h4]
      exact ih a d rest (i + 1) hd (by simp at hf ⊢; omega)
  | brace s1 t hs1 ht ih1 ih2 =>
    intro f d rest i hd hf
    cases f with
    | zero => simp at hf
    | succ a =>
      have hidx : i + ('\x7b' :: (s1 ++ '\x7d' :: t)).length = ((i + 1) + s1.length + 1) + t.length := by
        simp
        omega
      have happ : ('\x7b' :: (s1 ++ '\x7d' :: t)) ++ rest = '\x7b' :: (s1 ++ ('\x7d' :: (t ++ rest))) := by
        simp
      rw [hidx, happ, fmbAux_step_open a d (s1 ++ ('\x7d' :: (t ++ rest))) i]
      rw [ih1 a (d + 1) ('\x7d' :: (t ++ rest)) (i + 1) (by omega) (by simp at hf ⊢; omega)]
      rw [List.length_cons, fmbAux_step_close (t ++ rest).length (d + 1) (t ++ rest)
        (i + 1 + s1.length) (by omega)]
      have hd1 : (d : Int) + 1 - 1 = d := by ring
      rw [hd1]
      exact ih2 (t ++ rest).length d rest (i + 1 + s1.length + 1) hd (le_refl _)
  | dq sb t hsb ht ih =>
    intro f d rest i hd hf
    cases f with
    | zero => simp at hf
    | succ a =>
      have happ : ('\x22' :: (sb ++ t)) ++ rest = '\x22' :: (sb ++ (t ++ rest)) := by
        simp
      have hskip := skipStr_strTail '\x22' (by decide) hsb (t ++ rest)
      have hlen : (sb ++ (t ++ rest)).length - (t ++ rest).length = sb.length := by
        simp
      have hidx : i + ('\x22' :: (sb ++ t)).length = (i + 1 + sb.length) + t.length := by
        simp
        omega
      rw [hidx, happ, fmbAux_step_dq a d (sb ++ (t ++ rest)) (t ++ rest) i hskip, hlen]
      exact ih a d rest (i + 1 + sb.length) hd (by simp at hf ⊢; omega)
  | sq sb t hsb ht ih =>
    intro f d rest i hd hf
    cases f with
    | zero => simp at hf
    | succ a =>
      have happ : ('\x27' :: (sb ++ t)) ++ rest = '\x27' :: (sb ++ (t ++ rest)) := by
        simp
      have hskip := skipStr_strTail '\x27' (by decide) hsb (t ++ rest)
      have hlen : (sb ++ (t ++ rest)).length - (t ++ rest).length = sb.length := by
        simp
      have hidx : i + ('\x27' :: (sb ++ t)).length = (i + 1 + sb.length) + t.length := by
        simp
        omega
      rw [hidx, happ, fmbAux_step_sq a d (sb ++ (t ++ rest)) (t ++ rest) i hskip, hlen]
      exact ih a d rest (i + 1 + sb.length) hd (by simp at hf ⊢; omega)

/-- find_matching_brace on an opening brace followed by a well-formed
interior and its closing brace returns the position just after that
closing brace. -/
lemma content_fmb {s : List Char} (h : Content s) (t : List Char) (p : Nat)
    (rest : List Char) (hdrop : t.drop p = '\x7b' :: (s ++ '\x7d' :: rest)) :
    find_matching_brace t p = some (p + s.length + 2) := by
  have hget : t.get? p = some '\x7b' := by
    have hg := List.get?_drop t p 0
    rw [hdrop] at hg
    simpa using hg.symm
  have hlen : t.length - p = (s ++ '\x7d' :: rest).length + 1 := by
    have hc := congrArg List.length hdrop
    rw [List.length_drop] at hc
    simp at hc ⊢
    omega
  unfold find_matching_brace
  rw [if_pos hget, hdrop, hlen, fmbAux_step_open (s ++ '\x7d' :: rest).length 0
    (s ++ '\x7d' :: rest) p]
  rw [content_fmbAux h (s ++ '\x7d' :: rest).length (0 + 1) ('\x7d' :: rest) (p + 1)
    (by omega) (le_refl _)]
  rw [List.length_cons, fmbAux_step_close0 rest.length (0 + 1) rest (p + 1 + s.length)
    (by norm_num)]
  exact congrArg some (by omega)

/-- A small signed value casts to u32 unchanged. -/
lemma u32cast_eq (x : Int) (h0 : 0 ≤ x) (h1 : x < 2 ^ 32) : u32cast x = x.toNat := by
  unfold u32cast
  rw [Int.emod_eq_of_lt h0 (by exact_mod_cast h1)]

/-- A non-underflowing small u32 subtraction computes the exact
difference. -/
lemma u32sub_eq (a b : Nat) (hba : b ≤ a) (hw : a - b < 2 ^ 32) : u32sub a b = a - b := by
  unfold u32sub
  rw [u32cast_eq ((a : Int) - b) (by omega) (by omega)]
  omega

/-- The position-adjustment loop returns the original start position of
the first delta in list order that contains the queried position. -/
lemma adjustAux_within : ∀ (deltas : List PositionDelta) (line col i : Nat)
    (d : PositionDelta), deltas.get? i = some d → containsPos d line col →
    (∀ j dj, j < i → deltas.get? j = some dj → ¬ containsPos dj line col) →
    ∀ adj, adjustAux deltas line col adj = (d.original_line, d.original_column) := by
  intro deltas
  induction deltas with
  | nil =>
    intro line col i d h
    simp at h
  | cons d0 rest ih =>
    intro line col i d h hc hfirst adj
    cases i with
    | zero =>
      rw [List.get?_cons_zero] at h
      injection h with h
      subst h
      simp only [adjustAux]
      rw [if_pos hc.1, if_pos ⟨hc.2.1, hc.2.2⟩]
    | succ j =>
      rw [List.get?_cons_succ] at h
      have h0 : ¬ containsPos d0 line col := hfirst 0 d0 (Nat.succ_pos j) rfl
      have hrest : ∀ k dk, k < j → rest.get? k = some dk → ¬ containsPos dk line col := by
        intro k dk hk hgk
        exact hfirst (k + 1) dk (by omega) (by rw [List.get?_cons_succ]; exact hgk)
      simp only [adjustAux]
      by_cases hl : d0.preprocessed_line = line
      · rw [if_pos hl]
        by_cases hw : d0.preprocessed_column ≤ col ∧ col < d0.preprocessed_end_column
        · exact absurd ⟨hl, hw.1, hw.2⟩ h0
        · rw [if_neg hw]
          by_cases hge : d0.preprocessed_end_column ≤ col
          · rw [if_pos hge]
            exact ih line col j d h hc hrest _
          · rw [if_neg hge]
            exact ih line col j d h hc hrest _
      · rw [if_neg hl]
        exact ih line col j d h hc hrest _

/-- The position-adjustment loop, when the queried position is inside no
placeholder, adds the accumulated line shift to the accumulator and
clamps. -/
lemma adjustAux_shift : ∀ (deltas : List PositionDelta) (line col : Nat),
    (∀ d ∈ deltas, d.preprocessed_line = line →
      d.preprocessed_column ≤ d.preprocessed_end_column ∧
      d.preprocessed_end_column - d.preprocessed_column < 2 ^ 32 ∧
      d.original_column ≤ d.original_end_column ∧
      d.original_end_column - d.original_column < 2 ^ 32 ∧
      ¬(d.preprocessed_column ≤ col ∧ col < d.preprocessed_end_column)) →
    ∀ adj, adjustAux deltas line col adj
      = (line, u32cast (max (adj + lineShift deltas line col) 0)) := by
  intro deltas
  induction deltas with
  | nil =>
    intro line col hwf adj
    simp [adjustAux, lineShift]
  | cons d0 rest ih =>
    intro line col hwf adj
    have hwfr : ∀ d ∈ rest, d.preprocessed_line = line →
        d.preprocessed_column ≤ d.preprocessed_end_column ∧
        d.preprocessed_end_column - d.preprocessed_column < 2 ^ 32 ∧
        d.original_column ≤ d.original_end_column ∧
        d.original_end_column - d.original_column < 2 ^ 32 ∧
        ¬(d.preprocessed_column ≤ col ∧ col < d.preprocessed_end_column) := by
      intro d hd
      exact hwf d (List.mem_cons_of_mem d0 hd)
    simp only [adjustAux, lineShift]
    by_cases hl : d0.preprocessed_line = line
    · obtain ⟨hpc, hpcw, hoc, hocw, hnin⟩ := hwf d0 (List.mem_cons_self d0 rest) hl
      rw [if_pos hl, if_neg hnin]
      by_cases hge : d0.preprocessed_end_column ≤ col
      · rw [if_pos hge, if_pos ⟨hl, hge⟩]
        rw [u32sub_eq _ _ hoc hocw, u32sub_eq _ _ hpc hpcw]
        rw [ih line col hwfr _]
        have harith : adj + (((d0.original_end_column - d0.original_column : Nat) : Int)
              - ((d0.preprocessed_end_column - d0.preprocessed_column : Nat) : Int))
              + lineShift rest line col
            = adj + (((d0.original_end_column : Int) - (d0.original_column : Int)
              - ((d0.preprocessed_end_column : Int) - (d0.preprocessed_column : Int)))
              + lineShift rest line col) := by
          push_cast [hoc, hpc]
          ring
        rw [harith]
      · rw [if_neg hge, if_neg (fun hcontra => hge hcontra.2)]
        rw [ih line col hwfr adj, zero_add]
    · rw [if_neg hl, if_neg (fun hcontra => hl hcontra.1)]
      rw [ih line col hwfr adj, zero_add]

/-- The position-adjustment loop never changes the queried line when
every delta records equal original and preprocessed lines. -/
lemma adjustAux_line : ∀ (deltas : List PositionDelta) (line col : Nat) (adj : Int),
    (∀ d ∈ deltas, d.original_line = d.preprocessed_line) →
    (adjustAux deltas line col adj).1 = line := by
  intro deltas
  induction deltas with
  | nil =>
    intro line col adj hwf
    simp [adjustAux]
  | cons d0 rest ih =>
    intro line col adj hwf
    have hr : ∀ d ∈ rest, d.original_line = d.preprocessed_line := by
      intro d hd
      exact hwf d (List.mem_cons_of_mem d0 hd)
    simp only [adjustAux]
    by_cases hl : d0.preprocessed_line = line
    · rw [if_pos hl]
      by_cases hw : d0.preprocessed_column ≤ col ∧ col < d0.preprocessed_end_column
      · rw [if_pos hw]
        rw [hwf d0 (List.mem_cons_self d0 rest), hl]
      · rw [if_neg hw]
        by_cases hge : d0.preprocessed_end_column ≤ col
        · rw [if_pos hge]
          exact ih line col _ hr
        · rw [if_neg hge]
          exact ih line col _ hr
    · rw [if_neg hl]
      exact ih line col _ hr

/-- Every delta built by build_position_deltas records its expression
start line both as original and as preprocessed line. -/
lemma buildDeltasAux_line : ∀ (exprs : List Expression) (cl : Nat) (cum : Int),
    ∀ d ∈ buildDeltasAux exprs cl cum, d.original_line = d.preprocessed_line := by
  intro exprs
  induction exprs with
  | nil =>
    intro cl cum d hd
    simp [buildDeltasAux] at hd
  | cons e rest ih =>
    intro cl cum d hd
    simp only [buildDeltasAux, List.mem_cons] at hd
    cases hd with
    | inl h => subst h; rfl
    | inr h => exact ih _ _ d h

/-- The delta built at index i by build_position_deltas records the start
line and start column of the expression at index i. -/
lemma buildDeltasAux_get? : ∀ (exprs : List Expression) (cl : Nat) (cum : Int)
    (i : Nat) (e : Expression), exprs.get? i = some e →
    ∃ d, (buildDeltasAux exprs cl cum).get? i = some d
      ∧ d.original_line = e.start_line ∧ d.original_column = e.start_column := by
  intro exprs
  induction exprs with
  | nil =>
    intro cl cum i e h
    simp at h
  | cons e0 rest ih =>
    intro cl cum i e h
    cases i with
    | zero =>
      rw [List.get?_cons_zero] at h
      injection h with h
      subst h
      exact ⟨_, rfl, rfl, rfl⟩
    | succ j =>
      rw [List.get?_cons_succ] at h
      obtain ⟨d, hd, hl, hc⟩ := ih _ _ j e h
      exact ⟨d, by rw [buildDeltasAux, List.get?_cons_succ]; exact hd, hl, hc⟩

/-- Every match produced by the scanner from index i starts at or after
i. -/
lemma scanAux_start_lb : ∀ (f : Nat) (t : List Char) (i : Nat) (m : ExpressionMatch),
    m ∈ scanAux f t i → i ≤ m.start := by
  intro f
  induction f with
  | zero =>
    intro t i m hm
    simp [scanAux] at hm
  | succ a ih =>
    intro t i m hm
    simp only [scanAux] at hm
    by_cases hi : i < t.length
    · rw [if_pos hi] at hm
      split_ifs at hm with hw ht hskip
      · revert hm
        cases hfm : find_matching_brace t (i + 2) with
        | some e =>
          intro hm
          have he := fmb_bound t (i + 2) e hfm
          rcases List.mem_cons.mp hm with h | h
          · subst h; exact le_refl _
          · have := ih t e m h; omega
        | none =>
          intro hm
          have := ih t (i + 1) m hm
          omega
      · have := ih t (i + 1) m hm
        omega
      · revert hm
        cases hfm : find_matching_brace t (i + 1) with
        | some e =>
          intro hm
          have he := fmb_bound t (i + 1) e hfm
          rcases List.mem_cons.mp hm with h | h
          · subst h; exact le_refl _
          · have := ih t e m h; omega
        | none =>
          intro hm
          have := ih t (i + 1) m hm
          omega
      · have := ih t (i + 1) m hm
        omega
    · rw [if_neg hi] at hm
      simp at hm

/-- The matches produced by the scanner have strictly increasing start
offsets. -/
lemma scanAux_pairwise : ∀ (f : Nat) (t : List Char) (i : Nat),
    List.Pairwise (fun a b : ExpressionMatch => a.start < b.start) (scanAux f t i) := by
  intro f
  induction f with
  | zero =>
    intro t i
    simp [scanAux]
  | succ a ih =>
    intro t i
    simp only [scanAux]
    by_cases hi : i < t.length
    · rw [if_pos hi]
      split_ifs with hw ht hskip
      · cases hfm : find_matching_brace t (i + 2) with
        | some e =>
          have he := fmb_bound t (i + 2) e hfm
          refine List.Pairwise.cons ?_ (ih t e)
          intro b hb
          have := scanAux_start_lb a t e b hb
          show i < b.start
          omega
        | none => exact ih t (i + 1)
      · exact ih t (i + 1)
      · cases hfm : find_matching_brace t (i + 1) with
        | some e =>
          have he := fmb_bound t (i + 1) e hfm
          refine List.Pairwise.cons ?_ (ih t e)
          intro b hb
          have := scanAux_start_lb a t e b hb
          show i < b.start
          omega
        | none => exact ih t (i + 1)
      · exact ih t (i + 1)
    · rw [if_neg hi]
      exact List.Pairwise.nil

/-- The replacement fold of preprocess_expressions appends one Expression
record per processed pair, in processing order. -/
lemma foldl_preprocessStep_snd (t : List Char) :
    ∀ (l : List (Nat × ExpressionMatch)) (acc : List Char × List Expression),
    (l.foldl (preprocessStep t) acc).2 = acc.2 ++ l.map (mkExprOf t) := by
  intro l
  induction l with
  | nil =>
    intro acc
    simp
  | cons p rest ih =>
    intro acc
    rw [List.foldl_cons, ih (preprocessStep t acc p), List.map_cons]
    show (acc.2 ++ [mkExprOf t p]) ++ rest.map (mkExprOf t) = _
    rw [List.append_assoc]
    rfl

/-- Sorting a list of expressions whose start offsets strictly decrease
by start offset reverses it. -/
lemma insertionSort_desc_eq_reverse (l : List Expression)
    (hdesc : List.Pairwise (fun a b : Expression => b.start < a.start) l) :
    List.insertionSort (fun a b => a.start ≤ b.start) l = l.reverse := by
  haveI : IsTotal Expression (fun a b => a.start ≤ b.start) :=
    ⟨fun a b => Nat.le_total a.start b.start⟩
  haveI : IsTrans Expression (fun a b => a.start ≤ b.start) :=
    ⟨fun a b c h1 h2 => Nat.le_trans h1 h2⟩
  haveI : IsAntisymm Expression (fun a b => a.start < b.start) :=
    ⟨fun a b h1 h2 => absurd h2 (Nat.lt_asymm h1)⟩
  have hperm := List.perm_insertionSort (fun a b : Expression => a.start ≤ b.start) l
  have hsorted := List.sorted_insertionSort (fun a b : Expression => a.start ≤ b.start) l
  have hne : List.Pairwise (fun a b : Expression => a.start ≠ b.start) l :=
    hdesc.imp (fun h => Ne.symm (Nat.ne_of_lt h))
  have hnodup : (l.map (fun e => e.start)).Nodup := List.pairwise_map.mpr hne
  have hnodup2 : ((List.insertionSort (fun a b : Expression => a.start ≤ b.start) l).map
      (fun e => e.start)).Nodup := ((hperm.map (fun e => e.start)).nodup_iff).mpr hnodup
  have hne2 := List.pairwise_map.mp hnodup2
  have hlt : List.Sorted (fun a b : Expression => a.start < b.start)
      (List.insertionSort (fun a b => a.start ≤ b.start) l) :=
    (hsorted.and hne2).imp (fun h => Nat.lt_of_le_of_ne h.1 h.2)
  have hltrev : List.Sorted (fun a b : Expression => a.start < b.start) l.reverse :=
    List.pairwise_reverse.mpr hdesc
  exact List.eq_of_perm_of_sorted (hperm.trans (List.reverse_perm l).symm) hlt hltrev

/-- When the scanner finds matches, the finalized expression list of
preprocess_expressions is the reverse of the records built over the
reversed match list. -/
lemma preprocess_expressions_exprs (t : List Char) (hne : scan_expressions t ≠ []) :
    (preprocess_expressions t).2.expressions
      = (((scan_expressions t).reverse.enum).map (mkExprOf t)).reverse := by
  have hpair : List.Pairwise (fun a b : ExpressionMatch => a.start < b.start)
      (scan_expressions t) := scanAux_pairwise _ t 0
  have hrev : List.Pairwise (fun a b : ExpressionMatch => b.start < a.start)
      (scan_expressions t).reverse := List.pairwise_reverse.mpr hpair
  have henum : List.Pairwise (fun p q : Nat × ExpressionMatch => q.2.start < p.2.start)
      (scan_expressions t).reverse.enum :=
    (List.pairwise_map).mp (by rw [List.enum_map_snd]; exact hrev)
  simp only [preprocess_expressions, finalize]
  rw [if_neg hne]
  show List.insertionSort _ (((scan_expressions t).reverse.enum.foldl (preprocessStep t)
    (t, [])).2) = _
  rw [foldl_preprocessStep_snd t _ (t, [])]
  show List.insertionSort _ ([] ++ _) = _
  rw [List.nil_append]
  apply insertionSort_desc_eq_reverse
  exact (List.pairwise_map).mpr henum

/-- C3, counterexample: on a document with two expressions, the
document-order first expression receives ordinal 1 and the second
ordinal 0 (the enumeration counter runs over the reversed match list), so
ordinals are not monotonically increasing in document order. -/
theorem claim_C3_counterexample :
    ((preprocess_expressions ("a: $\x7bx\x7d\nb: $\x7by\x7d".toList)).2.expressions.map
        (fun e => e.placeholder))
      = [placeholderName 1, placeholderName 0]
    ∧ placeholderName 1 ≠ placeholderName 0 := by
  constructor
  · decide
  · decide

/-- C3, amended: the placeholder ordinals decrease in document order: in
a finalized map of n expressions, the expression with the i-th smallest
start offset receives ordinal n - 1 - i, because the replacement loop
enumerates the matches from last to first. -/
theorem claim_C3_amended (t : List Char) (i : Nat) (e : Expression)
    (h : (preprocess_expressions t).2.expressions.get? i = some e) :
    e.placeholder
      = placeholderName ((preprocess_expressions t).2.expressions.length - 1 - i) := by
  by_cases hms : scan_expressions t = []
  · exfalso
    simp only [preprocess_expressions] at h
    rw [if_pos hms] at h
    simp at h
  · rw [preprocess_expressions_exprs t hms] at h ⊢
    set l := ((scan_expressions t).reverse.enum).map (mkExprOf t) with hl
    have hil : i < l.length := by
      have hlt := lt_length_of_get?_some h
      simpa using hlt
    rw [List.get?_reverse hil] at h
    rw [List.length_reverse]
    rw [hl] at h
    rw [List.get?_map, List.get?_enum] at h
    cases hq : (scan_expressions t).reverse.get? (l.length - 1 - i) with
    | none =>
      rw [hq] at h
      simp at h
    | some mj =>
      rw [hq] at h
      simp only [Option.map_some'] at h
      injection h with h
      rw [← h]
      rfl

/-- C3, witness for the amended claim at a concrete document: the
document-order first of two expressions carries ordinal 1. -/
theorem claim_C3_amended_witness :
    ((preprocess_expressions ("a: $\x7bx\x7d\nb: $\x7by\x7d".toList)).2.expressions.get? 0).map
        (fun e => e.placeholder) = some (placeholderName 1) := by
  have h : (preprocess_expressions ("a: $\x7bx\x7d\nb: $\x7by\x7d".toList)).2.expressions.get? 0
      = some ⟨['$', '\x7b', 'x', '\x7d'], placeholderName 1, 3, 7, 0, 3, 0, 7,
          ExpressionKind.Terraform⟩ := by
    decide
  have h2 := claim_C3_amended ("a: $\x7bx\x7d\nb: $\x7by\x7d".toList) 0 _ h
  have hlen : (preprocess_expressions ("a: $\x7bx\x7d\nb: $\x7by\x7d".toList)).2.expressions.length
      = 2 := by decide
  rw [h, Option.map_some', h2, hlen]

/-- C1: on a finalized map, a rewritten-text position whose column falls
within the column span of the placeholder recorded at index i (and within
no earlier-listed placeholder span) is adjusted to exactly the start line
and start column of that placeholder's original expression. -/
theorem claim_C1 (m0 : ExpressionMap) (line col i : Nat) (e : Expression)
    (d : PositionDelta)
    (he : (finalize m0).expressions.get? i = some e)
    (hd : (finalize m0).position_deltas.get? i = some d)
    (hc : containsPos d line col)
    (hfirst : ∀ j dj, j < i → (finalize m0).position_deltas.get? j = some dj →
      ¬ containsPos dj line col) :
    adjust_position (finalize m0) line col = (e.start_line, e.start_column) := by
  have hup := adjustAux_within (finalize m0).position_deltas line col i d hd hc hfirst
    (col : Int)
  obtain ⟨d2, hd2, hl2, hc2⟩ := buildDeltasAux_get? (finalize m0).expressions 0 0 i e he
  have hx : (finalize m0).position_deltas.get? i = some d2 := hd2
  have hdd : d = d2 := by
    have hcombined := hx.symm.trans hd
    exact (Option.some.inj hcombined).symm
  show adjustAux (finalize m0).position_deltas line col (col : Int) = _
  rw [hup, hdd, hl2, hc2]

/-- C1, witness: the position (0, 10), inside the placeholder that spans
columns 7 to 19, maps back to the original expression start (0, 7). -/
theorem claim_C1_witness :
    adjust_position (finalize ⟨[⟨"$\x7bvar.name\x7d".toList, "__EXPR_000__".toList, 7, 18,
      0, 7, 0, 18, ExpressionKind.Terraform⟩], []⟩) 0 10 = (0, 7) := by
  exact claim_C1 ⟨[⟨"$\x7bvar.name\x7d".toList, "__EXPR_000__".toList, 7, 18,
      0, 7, 0, 18, ExpressionKind.Terraform⟩], []⟩ 0 10 0
    ⟨"$\x7bvar.name\x7d".toList, "__EXPR_000__".toList, 7, 18, 0, 7, 0, 18,
      ExpressionKind.Terraform⟩
    ⟨0, 7, 19, 0, 7, 0, 18, false⟩
    (by decide) (by decide) (by decide)
    (fun j dj hj _ => absurd hj (Nat.not_lt_zero j))

/-- C2: on a map whose deltas are well formed for the queried line and
none of whose placeholders contains the queried column, the adjusted
column is the queried column plus the accumulated signed length
difference of every placeholder on that line ending at or before the
queried column. -/
theorem claim_C2 (deltas : List PositionDelta) (es : List Expression) (line col : Nat)
    (hwf : ∀ d ∈ deltas, d.preprocessed_line = line →
      d.preprocessed_column ≤ d.preprocessed_end_column ∧
      d.preprocessed_end_column - d.preprocessed_column < 2 ^ 32 ∧
      d.original_column ≤ d.original_end_column ∧
      d.original_end_column - d.original_column < 2 ^ 32 ∧
      ¬(d.preprocessed_column ≤ col ∧ col < d.preprocessed_end_column))
    (h0 : 0 ≤ (col : Int) + lineShift deltas line col)
    (h1 : (col : Int) + lineShift deltas line col < 2 ^ 32) :
    adjust_position ⟨es, deltas⟩ line col
      = (line, ((col : Int) + lineShift deltas line col).toNat) := by
  show adjustAux deltas line col (col : Int) = _
  rw [adjustAux_shift deltas line col hwf (col : Int)]
  rw [max_eq_left h0, u32cast_eq _ h0 h1]

/-- C2, witness: after a placeholder spanning columns 7 to 19 whose
original expression was one character shorter, the queried column 20 is
mapped to 19, smaller than the query by the length difference. -/
theorem claim_C2_witness :
    adjust_position ⟨[], [⟨0, 7, 19, 0, 7, 0, 18, false⟩]⟩ 0 20 = (0, 19)
    ∧ (19 : Nat) < 20 := by
  constructor
  · have h := claim_C2 [⟨0, 7, 19, 0, 7, 0, 18, false⟩] [] 0 20
      (by decide) (by decide) (by decide)
    rw [h]
    decide
  · decide

/-- C8: for every map produced by preprocessing, position adjustment
returns the queried line unchanged, and the resulting column is never
negative. -/
theorem claim_C8 (t : List Char) (line col : Nat) :
    (adjust_position (preprocess_expressions t).2 line col).1 = line
    ∧ 0 ≤ ((adjust_position (preprocess_expressions t).2 line col).2 : Int) := by
  constructor
  · by_cases hms : scan_expressions t = []
    · simp only [preprocess_expressions]
      rw [if_pos hms]
      rfl
    · simp only [preprocess_expressions]
      rw [if_neg hms]
      apply adjustAux_line
      intro d hd
      exact buildDeltasAux_line _ 0 0 d hd
  · exact Int.natCast_nonneg _

/-- C9: if the scanner finds no matches, preprocessing returns the text
unchanged with the empty map, and every position query on the empty map
passes through unchanged. -/
theorem claim_C9 (t : List Char) (h : scan_expressions t = []) :
    preprocess_expressions t = (t, ⟨[], []⟩)
    ∧ ∀ line col : Nat, col < 2 ^ 32 →
        adjust_position (⟨[], []⟩ : ExpressionMap) line col = (line, col) := by
  constructor
  · simp only [preprocess_expressions]
    rw [if_pos h]
  · intro line col hcol
    show adjustAux [] line col (col : Int) = (line, col)
    simp only [adjustAux]
    rw [max_eq_left (Int.natCast_nonneg col)]
    rw [u32cast_eq _ (Int.natCast_nonneg col) (by exact_mod_cast hcol)]
    simp

/-- C9, witness: a plain document scans to no matches, preprocessing
passes it through with the empty map, and a query on the empty map is
unchanged. -/
theorem claim_C9_witness :
    preprocess_expressions ("key: value".toList) = ("key: value".toList, ⟨[], []⟩)
    ∧ adjust_position (⟨[], []⟩ : ExpressionMap) 5 10 = (5, 10) := by
  have h := claim_C9 ("key: value".toList) (by decide)
  exact ⟨h.1, h.2 5 10 (by decide)⟩

/-- C4: an opener whose brace matching fails records no expression and
the scan resumes at the opener position plus one, for both opener kinds;
concretely, a lone unterminated opener leaves preprocessing as the
identity, and a well-formed expression starting inside an unmatched
opener span is still detected and substituted, the unmatched opener text
remaining verbatim in the rewritten text. -/
theorem claim_C4 :
    (∀ (t : List Char) (i : Nat), t.get? i = some '$' → t.get? (i + 1) = some '\x7b' →
      (i = 0 ∨ t.get? (i - 1) ≠ some '$') → find_matching_brace t (i + 1) = none →
      scanFrom t i = scanFrom t (i + 1))
    ∧ (∀ (t : List Char) (i : Nat), t.get? i = some '$' → t.get? (i + 1) = some '$' →
      t.get? (i + 2) = some '\x7b' → find_matching_brace t (i + 2) = none →
      scanFrom t i = scanFrom t (i + 1))
    ∧ preprocess_expressions ("value: $\x7bvar.name".toList)
        = ("value: $\x7bvar.name".toList, ⟨[], []⟩)
    ∧ scan_expressions ("$\x7ba $\x7bb\x7d c".toList)
        = [⟨4, 8, "$\x7bb\x7d".toList, ExpressionKind.Terraform⟩]
    ∧ (preprocess_expressions ("$\x7ba $\x7bb\x7d c".toList)).1
        = "$\x7ba __EXPR_000__ c".toList := by
  refine ⟨scanFrom_t_none, scanFrom_w_none, by decide, by decide, by decide⟩

/-- C4, witness: resumption after an unterminated singly-delimited
opener and after an unterminated doubly-delimited opener. -/
theorem claim_C4_witness :
    scanFrom ("value: $\x7bvar.name".toList) 7 = scanFrom ("value: $\x7bvar.name".toList) 8
    ∧ scanFrom ("x: $$\x7boops".toList) 3 = scanFrom ("x: $$\x7boops".toList) 4 := by
  constructor
  · exact claim_C4.1 ("value: $\x7bvar.name".toList) 7 (by decide) (by decide)
      (Or.inr (by decide)) (by decide)
  · exact claim_C4.2.1 ("x: $$\x7boops".toList) 3 (by decide) (by decide) (by decide)
      (by decide)

/-- C7: at each position the doubly-delimited opener is recognized before
the singly-delimited one, a singly-delimited opener immediately preceded
by a dollar sign is skipped, and on adjacent doubly- and singly-delimited
expressions the scanner yields exactly the two expressions of the two
kinds with correct offsets. -/
theorem claim_C7 :
    (∀ (t : List Char) (i e : Nat), t.get? i = some '$' → t.get? (i + 1) = some '$' →
      t.get? (i + 2) = some '\x7b' → find_matching_brace t (i + 2) = some e →
      scanFrom t i
        = ⟨i, e, (t.drop i).take (e - i), ExpressionKind.Workflows⟩ :: scanFrom t e)
    ∧ (∀ (t : List Char) (i : Nat), 0 < i → t.get? (i - 1) = some '$' →
      t.get? i = some '$' → t.get? (i + 1) = some '\x7b' →
      scanFrom t i = scanFrom t (i + 1))
    ∧ scan_expressions ("$$\x7ba\x7d$\x7bb\x7d".toList)
        = [⟨0, 5, "$$\x7ba\x7d".toList, ExpressionKind.Workflows⟩,
           ⟨5, 9, "$\x7bb\x7d".toList, ExpressionKind.Terraform⟩] := by
  refine ⟨scanFrom_w_match, ?_, by decide⟩
  intro t i hp hd h0 h1
  exact scanFrom_t_skip t i h0 h1 hp hd

/-- C7, witness: the adjacent-expressions document scans the Workflows
expression first, and a dollar-preceded singly-delimited opener is
skipped. -/
theorem claim_C7_witness :
    scanFrom ("$$\x7ba\x7d$\x7bb\x7d".toList) 0
      = ⟨0, 5, ("$$\x7ba\x7d$\x7bb\x7d".toList.drop 0).take (5 - 0),
          ExpressionKind.Workflows⟩ :: scanFrom ("$$\x7ba\x7d$\x7bb\x7d".toList) 5
    ∧ scanFrom ("$$\x7bx\x7d".toList) 1 = scanFrom ("$$\x7bx\x7d".toList) 2 := by
  constructor
  · exact claim_C7.1 ("$$\x7ba\x7d$\x7bb\x7d".toList) 0 5 (by decide) (by decide)
      (by decide) (by decide)
  · exact claim_C7.2.1 ("$$\x7bx\x7d".toList) 1 (by decide) (by decide) (by decide)
      (by decide)

/-- C5: a well-formed delimited expression whose interior is arbitrary
grammar content (nested braces, double- or single-quoted strings whose
braces do not count, backslash escaping exactly the next character) is
recorded as exactly one expression spanning from the opener through the
brace returning the depth to zero, for both opener kinds. -/
theorem claim_C5 :
    (∀ (t : List Char) (i : Nat) (s rest : List Char), Content s →
      t.drop i = '$' :: '\x7b' :: (s ++ '\x7d' :: rest) →
      (i = 0 ∨ t.get? (i - 1) ≠ some '$') →
      scanFrom t i
        = ⟨i, i + s.length + 3, '$' :: '\x7b' :: (s ++ ['\x7d']),
            ExpressionKind.Terraform⟩ :: scanFrom t (i + s.length + 3))
    ∧ (∀ (t : List Char) (i : Nat) (s rest : List Char), Content s →
      t.drop i = '$' :: '$' :: '\x7b' :: (s ++ '\x7d' :: rest) →
      scanFrom t i
        = ⟨i, i + s.length + 4, '$' :: '$' :: '\x7b' :: (s ++ ['\x7d']),
            ExpressionKind.Workflows⟩ :: scanFrom t (i + s.length + 4)) := by
  constructor
  · intro t i s rest hs hdrop hpre
    have h0 : t.get? i = some '$' := by
      have hg := List.get?_drop t i 0
      rw [hdrop] at hg
      simpa using hg.symm
    have h1 : t.get? (i + 1) = some '\x7b' := by
      have hg := List.get?_drop t i 1
      rw [hdrop] at hg
      simpa using hg.symm
    have hdrop1 : t.drop (i + 1) = '\x7b' :: (s ++ '\x7d' :: rest) := by
      rw [← List.drop_drop 1 i t, hdrop]
      rfl
    have hm : find_matching_brace t (i + 1) = some (i + s.length + 3) := by
      rw [content_fmb hs t (i + 1) rest hdrop1]
      exact congrArg some (by omega)
    have hstep := scanFrom_t_match t i (i + s.length + 3) h0 h1 hpre hm
    have hslice : (t.drop i).take (i + s.length + 3 - i)
        = '$' :: '\x7b' :: (s ++ ['\x7d']) := by
      rw [show i + s.length + 3 - i = s.length + 3 from by omega, hdrop]
      rw [show s.length + 3 = (s.length + 1) + 1 + 1 from by omega]
      rw [List.take_succ_cons, List.take_succ_cons, List.take_append 1]
      rfl
    rw [hstep, hslice]
  · intro t i s rest hs hdrop
    have h0 : t.get? i = some '$' := by
      have hg := List.get?_drop t i 0
      rw [hdrop] at hg
      simpa using hg.symm
    have h1 : t.get? (i + 1) = some '$' := by
      have hg := List.get?_drop t i 1
      rw [hdrop] at hg
      simpa using hg.symm
    have h2 : t.get? (i + 2) = some '\x7b' := by
      have hg := List.get?_drop t i 2
      rw [hdrop] at hg
      simpa using hg.symm
    have hdrop2 : t.drop (i + 2) = '\x7b' :: (s ++ '\x7d' :: rest) := by
      rw [← List.drop_drop 2 i t, hdrop]
      rfl
    have hm : find_matching_brace t (i + 2) = some (i + s.length + 4) := by
      rw [content_fmb hs t (i + 2) rest hdrop2]
      exact congrArg some (by omega)
    have hstep := scanFrom_w_match t i (i + s.length + 4) h0 h1 h2 hm
    have hslice : (t.drop i).take (i + s.length + 4 - i)
        = '$' :: '$' :: '\x7b' :: (s ++ ['\x7d']) := by
      rw [show i + s.length + 4 - i = s.length + 4 from by omega, hdrop]
      rw [show s.length + 4 = (s.length + 1) + 1 + 1 + 1 from by omega]
      rw [List.take_succ_cons, List.take_succ_cons, List.take_succ_cons, List.take_append 1]
      rfl
    rw [hstep, hslice]

/-- C5, witness: a Terraform expression whose quoted interior contains a
brace, and a Workflows expression whose quoted interior contains an
escaped quote, are each scanned as one whole expression. -/
theorem claim_C5_witness :
    scanFrom ['$', '\x7b', '\x22', '\x7d', '\x22', '\x7d'] 0
      = ⟨0, 6, ['$', '\x7b', '\x22', '\x7d', '\x22', '\x7d'],
          ExpressionKind.Terraform⟩ :: scanFrom ['$', '\x7b', '\x22', '\x7d', '\x22', '\x7d'] 6
    ∧ scanFrom ['$', '$', '\x7b', '\x22', '\\', '\x22', '\x22', '\x7d'] 0
      = ⟨0, 8, ['$', '$', '\x7b', '\x22', '\\', '\x22', '\x22', '\x7d'],
          ExpressionKind.Workflows⟩
          :: scanFrom ['$', '$', '\x7b', '\x22', '\\', '\x22', '\x22', '\x7d'] 8 := by
  constructor
  · exact claim_C5.1 ['$', '\x7b', '\x22', '\x7d', '\x22', '\x7d'] 0
      ('\x22' :: (('\x7d' :: ['\x22']) ++ [])) []
      (Content.dq ('\x7d' :: ['\x22']) []
        (StrTail.chr '\x22' '\x7d' ['\x22'] (by decide) (by decide) (StrTail.close '\x22'))
        Content.nil)
      rfl (Or.inl rfl)
  · exact claim_C5.2 ['$', '$', '\x7b', '\x22', '\\', '\x22', '\x22', '\x7d'] 0
      ('\x22' :: (('\\' :: '\x22' :: ['\x22']) ++ [])) []
      (Content.dq ('\\' :: '\x22' :: ['\x22']) []
        (StrTail.esc '\x22' '\x22' ['\x22'] (StrTail.close '\x22'))
        Content.nil)
      rfl

/-- C6: on a pipeline-produced map containing a multi-line expression
whose end column (3) is smaller than its start column (8), a query on the
expression start line at a column past the placeholder reaches the u32
subtraction original_end_column - original_column with subtrahend larger
than minuend: the unsigned column arithmetic of adjust_position
underflows (panicking under Rust debug overflow checks). -/
theorem claim_C6_bug :
    adjust_position_underflows
        (preprocess_expressions
          ("config: $\x7bjsonencode(\x7b\nx: 1\n\x7d)\x7d tail".toList)).2 0 25 = true
    ∧ ((preprocess_expressions
          ("config: $\x7bjsonencode(\x7b\nx: 1\n\x7d)\x7d tail".toList)).2.position_deltas.map
        (fun d => (d.original_column, d.original_end_column, d.is_multiline)))
      = [(8, 3, true)] := by
  constructor
  · decide
  · decide

/-- The character after a maximal satisfied run fails the predicate. -/
lemma dropWhile_head_false (p : Char → Bool) : ∀ (l : List Char),
    ∀ c ∈ (l.dropWhile p).take 1, p c = false := by
  intro l
  induction l with
  | nil =>
    intro c hc
    simp at hc
  | cons a l ih =>
    intro c hc
    rw [List.dropWhile_cons] at hc
    split_ifs at hc with ha
    · exact ih c hc
    · simp at hc
      subst hc
      exact Bool.eq_false_iff.mpr ha

/-- takeWhile over a satisfied run followed by a failing character is
that run. -/
lemma takeWhile_append_of (p : Char → Bool) : ∀ (l r : List Char),
    (∀ c ∈ l, p c = true) → (∀ c ∈ r.take 1, p c = false) →
    (l ++ r).takeWhile p = l := by
  intro l
  induction l with
  | nil =>
    intro r _ hr
    cases r with
    | nil => rfl
    | cons c rs =>
      rw [List.nil_append, List.takeWhile_cons, if_neg]
      rw [hr c (by simp)]
      simp
  | cons a l ih =>
    intro r hl hr
    rw [List.cons_append, List.takeWhile_cons, if_pos (hl a (by simp))]
    rw [ih r (fun c hc => hl c (List.mem_cons_of_mem a hc)) hr]

/-- Dropping the length of the maximal satisfied run drops exactly that
run. -/
lemma drop_length_takeWhile (p : Char → Bool) : ∀ (l : List Char),
    l.drop (l.takeWhile p).length = l.dropWhile p := by
  intro l
  induction l with
  | nil => rfl
  | cons a l ih =>
    by_cases hpa : p a
    · rw [List.takeWhile_cons, if_pos hpa, List.dropWhile_cons, if_pos hpa,
        List.length_cons, List.drop_succ_cons, ih]
    · rw [List.takeWhile_cons, if_neg hpa, List.dropWhile_cons, if_neg hpa]
      rfl

/-- Soundness of the locator matcher: a successful match at the head of s
decomposes s into the locator pattern with maximal digit runs followed by
the returned remainder. -/
lemma matchLocAt_sound (s : List Char) (n m : Nat) (r : List Char)
    (h : matchLocAt s = some (n, m, r)) :
    ∃ d1 d2, s = "at line ".toList ++ d1 ++ " column ".toList ++ d2 ++ r
      ∧ d1 ≠ [] ∧ (∀ c ∈ d1, c.isDigit = true) ∧ d2 ≠ [] ∧ (∀ c ∈ d2, c.isDigit = true)
      ∧ (∀ c ∈ r.take 1, c.isDigit = false)
      ∧ digitsToNat d1 = n ∧ digitsToNat d2 = m := by
  simp only [matchLocAt] at h
  split_ifs at h with h8 hd1 hcol hd2
  · simp only [Option.some.injEq, Prod.mk.injEq] at h
    obtain ⟨hn, hm, hr⟩ := h
    rw [drop_length_takeWhile] at hcol hd2 hm hr
    rw [drop_length_takeWhile] at hr
    refine ⟨(s.drop 8).takeWhile (fun c => c.isDigit),
      (((s.drop 8).dropWhile (fun c => c.isDigit)).drop 8).takeWhile (fun c => c.isDigit),
      ?_, hd1, ?_, hd2, ?_, ?_, hn, hm⟩
    · have hs : "at line ".toList ++ s.drop 8 = s := by
        conv_rhs => rw [← List.take_append_drop 8 s]
        rw [h8]
      have hs1 : (s.drop 8).takeWhile (fun c => c.isDigit)
          ++ (s.drop 8).dropWhile (fun c => c.isDigit) = s.drop 8 :=
        List.takeWhile_append_dropWhile _ _
      have hcol2 : " column ".toList
          ++ ((s.drop 8).dropWhile (fun c => c.isDigit)).drop 8
          = (s.drop 8).dropWhile (fun c => c.isDigit) := by
        conv_rhs =>
          rw [← List.take_append_drop 8 ((s.drop 8).dropWhile (fun c => c.isDigit))]
        rw [hcol]
      have hs3 : (((s.drop 8).dropWhile (fun c => c.isDigit)).drop 8).takeWhile
            (fun c => c.isDigit)
          ++ (((s.drop 8).dropWhile (fun c => c.isDigit)).drop 8).dropWhile
            (fun c => c.isDigit)
          = ((s.drop 8).dropWhile (fun c => c.isDigit)).drop 8 :=
        List.takeWhile_append_dropWhile _ _
      rw [← hr]
      conv_lhs => rw [← hs]
      simp only [List.append_assoc]
      congr 1
      conv_lhs => rw [← hs1]
      congr 1
      conv_lhs => rw [← hcol2]
      congr 1
      conv_lhs => rw [← hs3]
    · intro c hc
      exact List.mem_takeWhile_imp hc
    · intro c hc
      exact List.mem_takeWhile_imp hc
    · rw [← hr]
      exact dropWhile_head_false _ _

/-- Completeness of the locator matcher: on a text that decomposes as the
locator pattern with maximal digit runs, the matcher returns exactly the
two digit-run values and the remainder. -/
lemma matchLocAt_complete (d1 d2 rest : List Char)
    (h1 : d1 ≠ []) (hd1 : ∀ c ∈ d1, c.isDigit = true)
    (h2 : d2 ≠ []) (hd2 : ∀ c ∈ d2, c.isDigit = true)
    (hr : ∀ c ∈ rest.take 1, c.isDigit = false) :
    matchLocAt ("at line ".toList ++ d1 ++ " column ".toList ++ d2 ++ rest)
      = some (digitsToNat d1, digitsToNat d2, rest) := by
  simp only [List.append_assoc]
  have hC : (d1 ++ (" column ".toList ++ (d2 ++ rest))).takeWhile (fun c => c.isDigit)
      = d1 := by
    apply takeWhile_append_of _ _ _ hd1
    intro c hc
    simp at hc
    subst hc
    decide
  have hG : (d2 ++ rest).takeWhile (fun c => c.isDigit) = d2 :=
    takeWhile_append_of _ d2 rest hd2 hr
  simp only [matchLocAt]
  rw [List.take_left' (by decide), if_pos rfl]
  rw [List.drop_left' (by decide : ("at line ".toList).length = 8)]
  rw [hC, if_neg h1, List.drop_left]
  rw [List.take_left' (by decide), if_pos rfl]
  rw [List.drop_left' (by decide : (" column ".toList).length = 8)]
  rw [hG, if_neg h2, List.drop_left]

/-- A locator decomposition at the head of s makes the matcher succeed
with exactly its values. -/
lemma matchLocAt_of_locator {s : List Char} {n m : Nat} (h : LocatorFrom s n m) :
    ∃ r, matchLocAt s = some (n, m, r) := by
  obtain ⟨d1, d2, rest, hs, h1, hd1, h2, hd2, hr, hn, hm⟩ := h
  subst hs
  refine ⟨rest, ?_⟩
  rw [matchLocAt_complete d1 d2 rest h1 hd1 h2 hd2 hr, hn, hm]

/-- A failing match refutes any locator decomposition at the head. -/
lemma not_locator_of_matchNone {s : List Char} (h : matchLocAt s = none) (n m : Nat) :
    ¬ LocatorFrom s n m := by
  intro hl
  obtain ⟨r, hr⟩ := matchLocAt_of_locator hl
  rw [h] at hr
  exact Option.noConfusion hr

/-- A successful match witnesses a locator decomposition at the head. -/
lemma locator_of_matchSome {s : List Char} {n m : Nat} {r : List Char}
    (h : matchLocAt s = some (n, m, r)) : LocatorFrom s n m := by
  obtain ⟨d1, d2, hs, h1, hd1, h2, hd2, hrr, hn, hm⟩ := matchLocAt_sound s n m r h
  exact ⟨d1, d2, r, hs, h1, hd1, h2, hd2, hrr, hn, hm⟩

/-- A successful leftmost search yields a successful match at some
suffix. -/
lemma findLoc_some_ex : ∀ (msg : List Char) (v : Nat × Nat × List Char),
    findLoc msg = some v → ∃ i, matchLocAt (msg.drop i) = some v := by
  intro msg
  induction msg with
  | nil =>
    intro v h
    simp [findLoc] at h
  | cons c rest ih =>
    intro v h
    revert h
    simp only [findLoc]
    cases hm : matchLocAt (c :: rest) with
    | some v2 =>
      intro h
      injection h with h
      subst h
      exact ⟨0, by simpa using hm⟩
    | none =>
      intro h
      obtain ⟨i, hi⟩ := ih v h
      exact ⟨i + 1, by rwa [List.drop_succ_cons]⟩

/-- A failing leftmost search means the matcher fails at every suffix. -/
lemma findLoc_none_all : ∀ (msg : List Char), findLoc msg = none →
    ∀ i, matchLocAt (msg.drop i) = none := by
  intro msg
  induction msg with
  | nil =>
    intro _ i
    rw [List.drop_nil]
    decide
  | cons c rest ih =>
    intro h i
    have h0 : matchLocAt (c :: rest) = none := by
      revert h
      simp only [findLoc]
      cases hm : matchLocAt (c :: rest) with
      | some v2 => intro h; exact absurd h (by simp)
      | none => intro _; rfl
    cases i with
    | zero => simpa using h0
    | succ j =>
      rw [List.drop_succ_cons]
      apply ih _ j
      revert h
      simp only [findLoc]
      rw [h0]
      intro h
      exact h

/-- The leftmost search returns the match at the least index at which the
matcher succeeds. -/
lemma findLoc_min : ∀ (i : Nat) (msg : List Char) (n m : Nat) (r : List Char),
    (∀ j, j < i → matchLocAt (msg.drop j) = none) →
    matchLocAt (msg.drop i) = some (n, m, r) → findLoc msg = some (n, m, r) := by
  intro i
  induction i with
  | zero =>
    intro msg n m r _ hsome
    rw [List.drop_zero] at hsome
    cases msg with
    | nil =>
      rw [show matchLocAt [] = none from by decide] at hsome
      exact absurd hsome (by simp)
    | cons c rest =>
      simp only [findLoc]
      rw [hsome]
  | succ i ih =>
    intro msg n m r hnone hsome
    have h0 : matchLocAt msg = none := by
      have hx := hnone 0 (Nat.succ_pos i)
      rwa [List.drop_zero] at hx
    cases msg with
    | nil =>
      rw [List.drop_nil, show matchLocAt [] = none from by decide] at hsome
      exact absurd hsome (by simp)
    | cons c rest =>
      simp only [findLoc]
      rw [h0]
      apply ih rest n m r
      · intro j hj
        have hx := hnone (j + 1) (by omega)
        rwa [List.drop_succ_cons] at hx
      · rwa [List.drop_succ_cons] at hsome

/-- A successful suffix search of the clean regex yields a matching
suffix at the found offset. -/
lemma cleanAux_some : ∀ (msg : List Char) (k i : Nat), cleanAux msg k = some i →
    ∃ j, i = k + j ∧ matchCleanSuffix (msg.drop j) = true := by
  intro msg
  induction msg with
  | nil =>
    intro k i h
    simp [cleanAux] at h
  | cons c rest ih =>
    intro k i h
    simp only [cleanAux] at h
    split_ifs at h with hm
    · injection h with h
      exact ⟨0, by omega, by simpa using hm⟩
    · obtain ⟨j, hij, hms⟩ := ih (k + 1) i h
      exact ⟨j + 1, by omega, by rwa [List.drop_succ_cons]⟩

/-- A suffix matching the clean regex contains a locator decomposition
just after its whitespace run. -/
lemma matchCleanSuffix_locator : ∀ (x : List Char), matchCleanSuffix x = true →
    ∃ k n m, LocatorFrom (x.drop k) n m := by
  intro x hx
  simp only [matchCleanSuffix] at hx
  split_ifs at hx with hw
  revert hx
  cases hm : matchLocAt (x.drop (x.takeWhile isWsChar).length) with
  | none =>
    intro hx
    exact absurd hx (by simp)
  | some v =>
    obtain ⟨n, m, rest⟩ := v
    intro hx
    have hrest : rest = [] := by simpa using hx
    subst hrest
    exact ⟨(x.takeWhile isWsChar).length, n, m, locator_of_matchSome hm⟩

/-- A message at which the matcher fails at every suffix has no
locator. -/
lemma noLocator_of_matchNone (msg : List Char)
    (h : ∀ j, j < msg.length + 1 → matchLocAt (msg.drop j) = none) :
    ¬ HasLocator msg := by
  rintro ⟨i, n, m, hl⟩
  obtain ⟨r, hr⟩ := matchLocAt_of_locator hl
  by_cases hi : i < msg.length + 1
  · rw [h i hi] at hr
    exact Option.noConfusion hr
  · have hnil : msg.drop i = [] := List.drop_eq_nil_of_le (by omega)
    rw [hnil, show matchLocAt [] = none from by decide] at hr
    exact Option.noConfusion hr

/-- C10: a parser message without an embedded locator extracts the
default position (0, 0) and is cleaned to itself; a message whose
leftmost locator carries the 1-indexed values N and M (each positive and
below 2^32) extracts exactly (N - 1, M - 1). -/
theorem claim_C10 :
    (∀ msg : List Char, ¬ HasLocator msg →
      extract_error_position msg = (0, 0) ∧ clean_error_message msg = msg)
    ∧ (∀ (msg : List Char) (i n m : Nat), LocatorFrom (msg.drop i) n m →
      (∀ j n2 m2, j < i → ¬ LocatorFrom (msg.drop j) n2 m2) →
      1 ≤ n → n < 2 ^ 32 → 1 ≤ m → m < 2 ^ 32 →
      extract_error_position msg = (n - 1, m - 1)) := by
  constructor
  · intro msg hno
    constructor
    · cases hfl : findLoc msg with
      | some v =>
        exfalso
        obtain ⟨i, hi⟩ := findLoc_some_ex msg v hfl
        obtain ⟨n, m, r⟩ := v
        exact hno ⟨i, n, m, locator_of_matchSome hi⟩
      | none =>
        simp only [extract_error_position]
        rw [hfl]
    · cases hcl : cleanAux msg 0 with
      | some i =>
        exfalso
        obtain ⟨j, hij, hms⟩ := cleanAux_some msg 0 i hcl
        obtain ⟨k, n, m, hl⟩ := matchCleanSuffix_locator _ hms
        rw [List.drop_drop] at hl
        exact hno ⟨j + k, n, m, hl⟩
      | none =>
        simp only [clean_error_message]
        rw [hcl]
  · intro msg i n m hloc hmin hn1 hn2 hm1 hm2
    obtain ⟨r, hr⟩ := matchLocAt_of_locator hloc
    have hnone : ∀ j, j < i → matchLocAt (msg.drop j) = none := by
      intro j hj
      cases hmj : matchLocAt (msg.drop j) with
      | none => rfl
      | some v =>
        obtain ⟨n2, m2, r2⟩ := v
        exact absurd (locator_of_matchSome hmj) (hmin j n2 m2 hj)
    have hfl := findLoc_min i msg n m r hnone hr
    simp only [extract_error_position]
    rw [hfl]
    show ((if n < 2 ^ 32 then n else 1) - 1, (if m < 2 ^ 32 then m else 1) - 1) = (n - 1, m - 1)
    rw [if_pos hn2, if_pos hm2]

/-- C10, witness: a message without a locator defaults to (0, 0) and is
cleaned to itself; a message with the locator at line 10 column 25
extracts (9, 24). -/
theorem claim_C10_witness :
    extract_error_position ("some error without position".toList) = (0, 0)
    ∧ clean_error_message ("some error without position".toList)
        = "some error without position".toList
    ∧ extract_error_position ("mapping values at line 10 column 25".toList) = (9, 24) := by
  have hA := claim_C10.1 ("some error without position".toList)
    (noLocator_of_matchNone _ (by decide))
  refine ⟨hA.1, hA.2, ?_⟩
  have hall : ∀ j, j < 15 →
      matchLocAt (("mapping values at line 10 column 25".toList).drop j) = none := by
    decide
  exact claim_C10.2 ("mapping values at line 10 column 25".toList) 15 10 25
    ⟨['1', '0'], ['2', '5'], [], by decide⟩
    (fun j n2 m2 hj => not_locator_of_matchNone (hall j hj) n2 m2)
    (by omega) (by norm_num) (by omega) (by norm_num)
